import Mathlib

set_option linter.unusedSectionVars false
set_option linter.unusedVariables false
set_option linter.unnecessarySeqFocus false

/-!
Verification of the `bare_metal_deque` crate (`src/lib.rs`): a fixed-capacity
double-ended queue backed by a ring buffer.

The Rust struct `BareMetalDeque<T: Default, const MAX_STORED: usize>` holds a
fixed array `array: [T; MAX_STORED]`, a physical front offset `start: usize`,
and a logical element count `size: usize`.  We embed it shallowly: the backing
array becomes a `List α` whose length plays the role of `MAX_STORED`
(every operation reads the capacity as `self.array.len()`, exactly as the Rust
code does), `Default::default()` becomes `(default : α)` from `Inhabited`,
and machine-`usize` arithmetic becomes `Nat` arithmetic (no overflow is
possible: all quantities stay below or at `MAX_STORED`).

A Rust `panic!` (the push-on-full path) is modelled by returning `none`;
the `Option` returned by `pop_front`/`pop_back`/`front`/`back` in Rust is
kept as a Lean `Option` result.  In-range array reads `self.array[k]` become
`List.getD k default`; everywhere the code performs them, `k` is reduced
modulo the array length or is `start`, which the structural invariant keeps
in range.
-/

/-- Shallow embedding of the Rust struct `BareMetalDeque<T, MAX_STORED>`:
`array` is the fixed backing store (its length is the capacity `MAX_STORED`),
`start` the physical slot of the logical front, `size` the live count. -/
structure BareMetalDeque (α : Type) where
  array : List α
  start : Nat
  size : Nat
deriving Repr, DecidableEq

namespace BareMetalDeque

variable {α : Type} [Inhabited α]

/-- `BareMetalDeque::new()` / `Default::default()`: all slots default,
`start = 0`, `size = 0`.  The capacity `n` models the const generic
`MAX_STORED`. -/
def new (n : Nat) : BareMetalDeque α :=
  { array := List.replicate n default, start := 0, size := 0 }

/-- `len(&self) -> usize { self.size }` -/
def len (d : BareMetalDeque α) : Nat :=
  d.size

/-- `is_empty(&self) -> bool { self.len() == 0 }` -/
def is_empty (d : BareMetalDeque α) : Bool :=
  d.len == 0

/-- `Index::index`: `&self.array[(self.start + index) % self.array.len()]`.
Note the code performs no check that `index < self.len()`. -/
def index (d : BareMetalDeque α) (i : Nat) : α :=
  d.array.getD ((d.start + i) % d.array.length) default

/-- `push_front`: panics (modelled as `none`) when `size == array.len()`;
otherwise decrements `start` with wraparound, writes the value there and
increments `size`. -/
def push_front (v : α) (d : BareMetalDeque α) : Option (BareMetalDeque α) :=
  if d.size = d.array.length then none
  else
    let s := (if d.start = 0 then d.array.length else d.start) - 1
    some { array := d.array.set s v, start := s, size := d.size + 1 }

/-- `push_back`: panics (modelled as `none`) when `size == array.len()`;
otherwise writes at `(start + size) % array.len()` and increments `size`. -/
def push_back (v : α) (d : BareMetalDeque α) : Option (BareMetalDeque α) :=
  if d.size = d.array.length then none
  else
    some { array := d.array.set ((d.start + d.size) % d.array.length) v,
           start := d.start, size := d.size + 1 }

/-- `front`: `Some(self.array[self.start])` when `size > 0`, else `None`. -/
def front (d : BareMetalDeque α) : Option α :=
  if d.size > 0 then some (d.array.getD d.start default) else none

/-- `back`: `Some(self.array[(start + size - 1) % array.len()])` when
`size > 0`, else `None`. -/
def back (d : BareMetalDeque α) : Option α :=
  if d.size > 0 then
    some (d.array.getD ((d.start + d.size - 1) % d.array.length) default)
  else none

/-- `pop_front`: reads `front()`; if present, advances `start` modulo the
capacity and decrements `size`.  Returns the read value and the new state. -/
def pop_front (d : BareMetalDeque α) : Option α × BareMetalDeque α :=
  let result := d.front
  if result.isSome then
    (result, { d with start := (d.start + 1) % d.array.length, size := d.size - 1 })
  else (result, d)

/-- `pop_back`: reads `back()`; if present, decrements `size` only. -/
def pop_back (d : BareMetalDeque α) : Option α × BareMetalDeque α :=
  let result := d.back
  if result.isSome then (result, { d with size := d.size - 1 })
  else (result, d)

/-- The sequence of logical elements, front to back: mirrors `iter()`,
which yields `self[i]` for `i` in `0..self.len()`. -/
def toList (d : BareMetalDeque α) : List α :=
  (List.range d.size).map (fun i => d.index i)

/-- Push a whole list with `push_back`, first element first; `none` as soon
as one push panics. -/
def pushBackAll (xs : List α) (d : BareMetalDeque α) : Option (BareMetalDeque α) :=
  match xs with
  | [] => some d
  | x :: rest =>
    match push_back x d with
    | none => none
    | some d2 => pushBackAll rest d2

/-- Push a whole list with `push_front`, first element first. -/
def pushFrontAll (xs : List α) (d : BareMetalDeque α) : Option (BareMetalDeque α) :=
  match xs with
  | [] => some d
  | x :: rest =>
    match push_front x d with
    | none => none
    | some d2 => pushFrontAll rest d2

/-- Perform `k` successive `pop_front` calls, collecting the returned
optional values in order, together with the final state. -/
def popFrontN : Nat → BareMetalDeque α → List (Option α) × BareMetalDeque α
  | 0, d => ([], d)
  | Nat.succ k, d =>
    let p := pop_front d
    let q := popFrontN k p.2
    (p.1 :: q.1, q.2)

/-- One public mutating operation, for reachability statements. -/
inductive DequeOp (α : Type) where
  | pushFrontOp (v : α)
  | pushBackOp (v : α)
  | popFrontOp
  | popBackOp
deriving Repr

/-- Apply one operation.  On a push into a full deque the Rust code aborts
the task; the claims under consideration only quantify over histories whose
pushes occur when the deque is not full, so the (never-taken under that
proviso) full branch leaves the state unchanged. -/
def applyOp (d : BareMetalDeque α) : DequeOp α → BareMetalDeque α
  | DequeOp.pushFrontOp v => (push_front v d).getD d
  | DequeOp.pushBackOp v => (push_back v d).getD d
  | DequeOp.popFrontOp => (pop_front d).2
  | DequeOp.popBackOp => (pop_back d).2

/-- Run a list of operations from a starting state. -/
def runOps (ops : List (DequeOp α)) (d : BareMetalDeque α) : BareMetalDeque α :=
  ops.foldl applyOp d

/-- The structural invariant of the ring buffer: the physical front offset
is a valid slot and the live count never exceeds the capacity. -/
def Inv (d : BareMetalDeque α) : Prop :=
  d.start < d.array.length ∧ d.size ≤ d.array.length

instance (d : BareMetalDeque α) : Decidable (Inv d) := by
  unfold Inv; infer_instance

/-- The slot written by `push_front`: `(if start == 0 { len } else { start }) - 1`. -/
def pfStart (d : BareMetalDeque α) : Nat :=
  (if d.start = 0 then d.array.length else d.start) - 1

theorem getD_set_self (l : List α) (i : Nat) (v w : α) (h : i < l.length) :
    (l.set i v).getD i w = v := by
  simp [List.getD_eq_getElem?_getD, List.getElem?_set_self, h]

theorem getD_set_ne (l : List α) {i j : Nat} (v w : α) (h : i ≠ j) :
    (l.set i v).getD j w = l.getD j w := by
  simp [List.getD_eq_getElem?_getD, List.getElem?_set_ne h]

/-- Physical slots of distinct in-range logical indices are distinct. -/
theorem add_mod_inj {n s i j : Nat} (hi : i < n) (hj : j < n)
    (h : (s + i) % n = (s + j) % n) : i = j := by
  have h2 : i % n = j % n := Nat.ModEq.add_left_cancel' s h
  rwa [Nat.mod_eq_of_lt hi, Nat.mod_eq_of_lt hj] at h2

theorem push_back_eq (v : α) (d : BareMetalDeque α) (h : d.size < d.array.length) :
    push_back v d = some { array := d.array.set ((d.start + d.size) % d.array.length) v,
                           start := d.start, size := d.size + 1 } := by
  simp [push_back, Nat.ne_of_lt h]

theorem push_front_eq (v : α) (d : BareMetalDeque α) (h : d.size < d.array.length) :
    push_front v d = some { array := d.array.set (pfStart d) v,
                            start := pfStart d, size := d.size + 1 } := by
  simp [push_front, pfStart, Nat.ne_of_lt h]

theorem pop_front_eq (d : BareMetalDeque α) (h0 : 0 < d.size) :
    pop_front d = (some (d.array.getD d.start default),
                   { d with start := (d.start + 1) % d.array.length,
                            size := d.size - 1 }) := by
  simp [pop_front, front, h0]

theorem pop_back_eq (d : BareMetalDeque α) (h0 : 0 < d.size) :
    pop_back d = (some (d.array.getD ((d.start + d.size - 1) % d.array.length) default),
                  { d with size := d.size - 1 }) := by
  simp [pop_back, back, h0]

/-- Appending with `push_back` extends the logical sequence at the back. -/
theorem toList_push_back (v : α) (d : BareMetalDeque α) (h : d.size < d.array.length) :
    toList { array := d.array.set ((d.start + d.size) % d.array.length) v,
             start := d.start, size := d.size + 1 }
      = toList d ++ [v] := by
  have hlen : 0 < d.array.length := Nat.lt_of_le_of_lt (Nat.zero_le _) h
  have hslot : (d.start + d.size) % d.array.length < d.array.length := Nat.mod_lt _ hlen
  unfold toList index
  simp only [List.range_succ, List.map_append, List.map_cons, List.map_nil,
    List.length_set]
  congr 1
  · apply List.map_congr_left
    intro i hi
    have hi2 : i < d.size := List.mem_range.mp hi
    apply getD_set_ne
    intro heq
    have := add_mod_inj h (Nat.lt_trans hi2 h) heq
    omega
  · rw [getD_set_self _ _ _ _ (by simpa using hslot)]

/-- Prepending with `push_front` extends the logical sequence at the front. -/
theorem toList_push_front (v : α) (d : BareMetalDeque α) (h : d.size < d.array.length)
    (hs : d.start < d.array.length) :
    toList { array := d.array.set (pfStart d) v,
             start := pfStart d, size := d.size + 1 }
      = v :: toList d := by
  have hlen : 0 < d.array.length := Nat.lt_of_le_of_lt (Nat.zero_le _) h
  have hs2 : pfStart d < d.array.length := by unfold pfStart; split <;> omega
  unfold toList index
  simp only [List.range_succ_eq_map, List.map_cons, List.map_map, List.length_set]
  congr 1
  · simpa [Nat.mod_eq_of_lt hs2] using getD_set_self d.array (pfStart d) v default hs2
  · apply List.map_congr_left
    intro i hi
    have hi2 : i < d.size := List.mem_range.mp hi
    have hkey : (pfStart d + Nat.succ i) % d.array.length
        = (d.start + i) % d.array.length := by
      unfold pfStart
      by_cases h0 : d.start = 0
      · rw [if_pos h0, h0]
        have hsum : d.array.length - 1 + Nat.succ i = d.array.length + i := by omega
        rw [hsum, Nat.add_mod_left, Nat.zero_add]
      · rw [if_neg h0]
        have hsum : d.start - 1 + Nat.succ i = d.start + i := by omega
        rw [hsum]
    have hne : pfStart d ≠ (pfStart d + Nat.succ i) % d.array.length := by
      intro heq
      have h0 : (pfStart d + 0) % d.array.length = pfStart d := by
        simpa using Nat.mod_eq_of_lt hs2
      have := add_mod_inj (i := 0) (j := Nat.succ i) hlen (by omega)
        (by rw [h0, ← heq])
      omega
    simp only [Function.comp]
    rw [getD_set_ne _ _ _ hne, hkey]

/-- Popping the front removes the head of the logical sequence. -/
theorem toList_cons (d : BareMetalDeque α) (h0 : 0 < d.size)
    (hs : d.start < d.array.length) :
    toList d = d.array.getD d.start default ::
      toList { d with start := (d.start + 1) % d.array.length, size := d.size - 1 } := by
  unfold toList index
  have hrange : d.size = (d.size - 1) + 1 := by omega
  conv_lhs => rw [hrange, List.range_succ_eq_map]
  simp only [List.map_cons, List.map_map, Nat.add_sub_cancel]
  congr 1
  · simp [Nat.mod_eq_of_lt hs]
  · apply List.map_congr_left
    intro i _
    simp only [Function.comp]
    rw [Nat.mod_add_mod]
    have harg : d.start + Nat.succ i = d.start + 1 + i := by omega
    rw [harg]

/-- Pushing a list at the back appends it to the logical sequence. -/
theorem pushBackAll_spec (xs : List α) : ∀ d : BareMetalDeque α,
    d.size + xs.length ≤ d.array.length →
    ∃ d2, pushBackAll xs d = some d2 ∧ toList d2 = toList d ++ xs ∧
      d2.array.length = d.array.length ∧ d2.start = d.start ∧
      d2.size = d.size + xs.length := by
  induction xs with
  | nil =>
    intro d _
    exact ⟨d, rfl, by simp, rfl, rfl, by simp⟩
  | cons x rest ih =>
    intro d h
    have hlt : d.size < d.array.length := by
      simp only [List.length_cons] at h; omega
    obtain ⟨d2, h1, h2, h3, h4, h5⟩ :=
      ih { array := d.array.set ((d.start + d.size) % d.array.length) x,
           start := d.start, size := d.size + 1 }
        (by simp only [List.length_set, List.length_cons] at h ⊢; omega)
    refine ⟨d2, ?_, ?_, ?_, ?_, ?_⟩
    · simp [pushBackAll, push_back_eq x d hlt, h1]
    · rw [h2, toList_push_back x d hlt]; simp
    · rw [h3]; simp
    · rw [h4]
    · rw [h5]; simp only [List.length_cons]; omega

/-- Pushing a list at the front prepends its reverse to the logical sequence. -/
theorem pushFrontAll_spec (xs : List α) : ∀ d : BareMetalDeque α,
    d.size + xs.length ≤ d.array.length → d.start < d.array.length →
    ∃ d2, pushFrontAll xs d = some d2 ∧ toList d2 = xs.reverse ++ toList d ∧
      d2.array.length = d.array.length ∧ d2.start < d2.array.length ∧
      d2.size = d.size + xs.length := by
  induction xs with
  | nil =>
    intro d _ hs
    exact ⟨d, rfl, by simp, rfl, hs, by simp⟩
  | cons x rest ih =>
    intro d h hs
    have hlt : d.size < d.array.length := by
      simp only [List.length_cons] at h; omega
    have hs2 : pfStart d < d.array.length := by unfold pfStart; split <;> omega
    obtain ⟨d2, h1, h2, h3, h4, h5⟩ :=
      ih { array := d.array.set (pfStart d) x,
           start := pfStart d, size := d.size + 1 }
        (by simp only [List.length_set, List.length_cons] at h ⊢; omega)
        (by simpa using hs2)
    refine ⟨d2, ?_, ?_, ?_, h4, ?_⟩
    · simp [pushFrontAll, push_front_eq x d hlt, h1]
    · rw [h2, toList_push_front x d hlt hs]; simp
    · rw [h3]; simp
    · rw [h5]; simp only [List.length_cons]; omega

/-- `k` consecutive `pop_front` calls return the first `k` logical elements. -/
theorem popFrontN_spec : ∀ (k : Nat) (d : BareMetalDeque α),
    k ≤ d.size → d.start < d.array.length →
    (popFrontN k d).1 = ((toList d).take k).map some := by
  intro k
  induction k with
  | zero => intro d _ _; simp [popFrontN]
  | succ k ih =>
    intro d hk hs
    have h0 : 0 < d.size := by omega
    have hlen : 0 < d.array.length := Nat.lt_of_le_of_lt (Nat.zero_le _) hs
    have hcons := toList_cons d h0 hs
    have hstep := pop_front_eq d h0
    have := ih { d with start := (d.start + 1) % d.array.length, size := d.size - 1 }
      (by simp; omega) (by simpa using Nat.mod_lt _ hlen)
    simp only [popFrontN, hstep, this, hcons, List.take_succ_cons, List.map_cons]

/-- State after `k` consecutive `pop_front` calls: the storage is untouched,
`start` advances by `k` modulo the capacity, `size` drops by `k`. -/
theorem popFrontN_state : ∀ (k : Nat) (d : BareMetalDeque α),
    k ≤ d.size → d.start < d.array.length →
    (popFrontN k d).2.array = d.array ∧
    (popFrontN k d).2.start = (d.start + k) % d.array.length ∧
    (popFrontN k d).2.size = d.size - k := by
  intro k
  induction k with
  | zero =>
    intro d _ hs
    refine ⟨rfl, ?_, rfl⟩
    simp [popFrontN, Nat.mod_eq_of_lt hs]
  | succ k ih =>
    intro d hk hs
    have h0 : 0 < d.size := by omega
    have hlen : 0 < d.array.length := Nat.lt_of_le_of_lt (Nat.zero_le _) hs
    have hstep := pop_front_eq d h0
    obtain ⟨ha, hb, hc⟩ := ih { d with start := (d.start + 1) % d.array.length,
                                       size := d.size - 1 }
      (by simp; omega) (by simpa using Nat.mod_lt _ hlen)
    refine ⟨?_, ?_, ?_⟩
    · simp only [popFrontN, hstep]; exact ha
    · simp only [popFrontN, hstep]
      rw [hb]
      simp only [Nat.mod_add_mod]
      have harg : d.start + 1 + k = d.start + Nat.succ k := by omega
      rw [harg]
    · simp only [popFrontN, hstep]
      rw [hc]
      simp only
      omega

/-- Every single public operation preserves the structural invariant and
the capacity. -/
theorem applyOp_inv (d : BareMetalDeque α) (op : DequeOp α) (h : Inv d) :
    Inv (applyOp d op) ∧ (applyOp d op).array.length = d.array.length := by
  obtain ⟨hs, hc⟩ := h
  have hlen : 0 < d.array.length := Nat.lt_of_le_of_lt (Nat.zero_le _) hs
  cases op with
  | pushFrontOp v =>
    by_cases hfull : d.size = d.array.length
    · simp [applyOp, push_front, hfull, Inv, hs, hc]
    · have hlt : d.size < d.array.length := Nat.lt_of_le_of_ne hc hfull
      have hs2 : pfStart d < d.array.length := by unfold pfStart; split <;> omega
      simp only [applyOp, push_front_eq v d hlt, Option.getD_some]
      refine ⟨⟨?_, ?_⟩, ?_⟩ <;> simp [pfStart] at hs2 ⊢ <;> omega
  | pushBackOp v =>
    by_cases hfull : d.size = d.array.length
    · simp [applyOp, push_back, hfull, Inv, hs, hc]
    · have hlt : d.size < d.array.length := Nat.lt_of_le_of_ne hc hfull
      simp only [applyOp, push_back_eq v d hlt, Option.getD_some]
      refine ⟨⟨?_, ?_⟩, ?_⟩ <;> simp <;> omega
  | popFrontOp =>
    by_cases h0 : 0 < d.size
    · simp only [applyOp, pop_front_eq d h0]
      refine ⟨⟨?_, ?_⟩, by trivial⟩
      · simpa using Nat.mod_lt _ hlen
      · simp; omega
    · have hz : d.size = 0 := by omega
      simp [applyOp, pop_front, front, hz, Inv, hs, hc]
  | popBackOp =>
    by_cases h0 : 0 < d.size
    · simp only [applyOp, pop_back_eq d h0]
      exact ⟨⟨hs, by simp; omega⟩, by trivial⟩
    · have hz : d.size = 0 := by omega
      simp [applyOp, pop_back, back, hz, Inv, hs, hc]

/-- Running any operation sequence preserves the structural invariant and
the capacity. -/
theorem runOps_inv (ops : List (DequeOp α)) : ∀ d : BareMetalDeque α, Inv d →
    Inv (runOps ops d) ∧ (runOps ops d).array.length = d.array.length := by
  induction ops with
  | nil => intro d h; exact ⟨h, rfl⟩
  | cons op rest ih =>
    intro d h
    obtain ⟨h1, h2⟩ := applyOp_inv d op h
    obtain ⟨h3, h4⟩ := ih (applyOp d op) h1
    exact ⟨h3, by rw [runOps] at h4 ⊢; simp only [List.foldl_cons] at h4 ⊢; omega⟩

end BareMetalDeque

/-! ## Concrete sample states used by the witnesses -/

/-- A concrete capacity-3 deque: physical slots [5, 6, 7], front at slot 1,
two live elements (6 then 7). -/
def sampleMid : BareMetalDeque Nat := ⟨[5, 6, 7], 1, 2⟩

/-- A concrete full capacity-2 deque. -/
def sampleFull : BareMetalDeque Nat := ⟨[1, 2], 0, 2⟩

/-- A concrete capacity-4 deque whose live region wraps: slots [30, 0, 10, 20],
front at slot 2, three live elements (10, 20, 30). -/
def sampleWrap : BareMetalDeque Nat := ⟨[30, 0, 10, 20], 2, 3⟩

/-! ## The claims -/

/-- C1 (code bug): the spec's contract requires the indexed read to validate
`i < len()` and fail explicitly when out of range, and the spec itself (§9)
records that the code instead computes `storage[(start+i) mod CAPACITY]`
unchecked.  Indeed: pushing the single value 10 into a fresh capacity-2 deque
yields a reachable state with `len = 1`, yet reading index 1 silently returns
the stale default value 0 of the logically dead slot, and reading index 2
wraps all the way around to the live front element 10.  No range check
against `len()` exists in `Index::index`. -/
theorem C1_index_unchecked :
    (BareMetalDeque.pushBackAll [10] (BareMetalDeque.new 2)
        : Option (BareMetalDeque Nat)).map
      (fun d => (d.len, d.index 1, d.index 2)) = some (1, 0, 10) := by
  rfl

/-- C2 (confirmed): starting from a fresh deque of capacity `n` and pushing
the values `xs` with `push_back` (so at most `n` live elements ever exist),
`xs.length` subsequent `pop_front` calls return exactly the pushed values in
push order (FIFO). -/
theorem C2_fifo {α : Type} [Inhabited α] (xs : List α) (n : Nat)
    (h : xs.length ≤ n) :
    ∃ d, BareMetalDeque.pushBackAll xs (BareMetalDeque.new n) = some d ∧
      (BareMetalDeque.popFrontN xs.length d).1 = xs.map some := by
  obtain ⟨d, h1, h2, h3, h4, h5⟩ :=
    BareMetalDeque.pushBackAll_spec xs (BareMetalDeque.new n)
      (by simp [BareMetalDeque.new]; omega)
  refine ⟨d, h1, ?_⟩
  have htl : BareMetalDeque.toList (BareMetalDeque.new n : BareMetalDeque α) = [] := by
    simp [BareMetalDeque.toList, BareMetalDeque.new]
  rw [htl] at h2
  simp only [List.nil_append] at h2
  by_cases hn : n = 0
  · subst hn
    have hxs : xs = [] := List.length_eq_zero.mp (by omega)
    subst hxs
    simp [BareMetalDeque.popFrontN]
  · have hs : d.start < d.array.length := by
      rw [h4, h3]; simp [BareMetalDeque.new]; omega
    have hk : xs.length ≤ d.size := by
      rw [h5]; simp [BareMetalDeque.new]
    rw [BareMetalDeque.popFrontN_spec xs.length d hk hs, h2, List.take_length]

/-- Witness for C2: pushing [3, 1, 2] into a fresh capacity-3 deque and
popping three times returns 3, 1, 2 in that order. -/
theorem C2_fifo_witness :
    ([3, 1, 2] : List Nat).length ≤ 3 ∧
    ∃ d, BareMetalDeque.pushBackAll ([3, 1, 2] : List Nat) (BareMetalDeque.new 3)
          = some d ∧
      (BareMetalDeque.popFrontN ([3, 1, 2] : List Nat).length d).1
        = ([3, 1, 2] : List Nat).map some :=
  ⟨by decide, C2_fifo [3, 1, 2] 3 (by decide)⟩

/-- C3 (confirmed): starting from a fresh deque of capacity `n` and pushing
the values `xs` with `push_front` (never exceeding `n` live elements),
`xs.length` subsequent `pop_front` calls return the pushed values in reverse
push order (LIFO). -/
theorem C3_lifo {α : Type} [Inhabited α] (xs : List α) (n : Nat)
    (h : xs.length ≤ n) :
    ∃ d, BareMetalDeque.pushFrontAll xs (BareMetalDeque.new n) = some d ∧
      (BareMetalDeque.popFrontN xs.length d).1 = xs.reverse.map some := by
  by_cases hn : n = 0
  · subst hn
    have hxs : xs = [] := List.length_eq_zero.mp (by omega)
    subst hxs
    exact ⟨_, rfl, by simp [BareMetalDeque.popFrontN]⟩
  · have hsn : (BareMetalDeque.new n : BareMetalDeque α).start
        < (BareMetalDeque.new n : BareMetalDeque α).array.length := by
      simp [BareMetalDeque.new]; omega
    obtain ⟨d, h1, h2, h3, h4, h5⟩ :=
      BareMetalDeque.pushFrontAll_spec xs (BareMetalDeque.new n)
        (by simp [BareMetalDeque.new]; omega) hsn
    refine ⟨d, h1, ?_⟩
    have htl : BareMetalDeque.toList (BareMetalDeque.new n : BareMetalDeque α) = [] := by
      simp [BareMetalDeque.toList, BareMetalDeque.new]
    rw [htl] at h2
    simp only [List.append_nil] at h2
    have hk : xs.length ≤ d.size := by
      rw [h5]; simp [BareMetalDeque.new]
    rw [BareMetalDeque.popFrontN_spec xs.length d hk h4, h2,
      ← List.length_reverse xs, List.take_length]

/-- Witness for C3: pushing 3, 1, 2 at the front of a fresh capacity-3 deque
and popping three times returns 2, 1, 3. -/
theorem C3_lifo_witness :
    ([3, 1, 2] : List Nat).length ≤ 3 ∧
    ∃ d, BareMetalDeque.pushFrontAll ([3, 1, 2] : List Nat) (BareMetalDeque.new 3)
          = some d ∧
      (BareMetalDeque.popFrontN ([3, 1, 2] : List Nat).length d).1
        = ([3, 1, 2] : List Nat).reverse.map some :=
  ⟨by decide, C3_lifo [3, 1, 2] 3 (by decide)⟩

/-- C4 (confirmed): when the deque is full (`size == array.len()`), both
`push_front` and `push_back` take the `panic!("Queue is full")` path —
modelled here as returning `none`, producing no successor state at all: no
recoverable value is returned and no element is overwritten. -/
theorem C4_push_full_fatal {α : Type} [Inhabited α] (d : BareMetalDeque α) (v : α)
    (h : d.size = d.array.length) :
    BareMetalDeque.push_front v d = none ∧ BareMetalDeque.push_back v d = none :=
  ⟨by simp [BareMetalDeque.push_front, h], by simp [BareMetalDeque.push_back, h]⟩

/-- Witness for C4 on a concrete full capacity-2 deque. -/
theorem C4_push_full_fatal_witness :
    sampleFull.size = sampleFull.array.length ∧
    (BareMetalDeque.push_front 5 sampleFull = none ∧
     BareMetalDeque.push_back 5 sampleFull = none) :=
  ⟨rfl, C4_push_full_fatal sampleFull 5 rfl⟩

/-- C5 (confirmed): on any deque satisfying the structural invariant on
`start`, each of `front`, `back`, `pop_front`, `pop_back` returns a present
value exactly when the deque is non-empty; all four are total functions of
the state (the emptiness branch returns `None`, never a fatal failure). -/
theorem C5_empty_absent {α : Type} [Inhabited α] (d : BareMetalDeque α)
    (h : d.start < d.array.length) :
    (d.front.isSome ↔ d.size ≠ 0) ∧ (d.back.isSome ↔ d.size ≠ 0) ∧
    ((BareMetalDeque.pop_front d).1.isSome ↔ d.size ≠ 0) ∧
    ((BareMetalDeque.pop_back d).1.isSome ↔ d.size ≠ 0) := by
  have hf : d.front.isSome ↔ d.size ≠ 0 := by
    by_cases h0 : 0 < d.size <;> simp [BareMetalDeque.front, h0] <;> omega
  have hb : d.back.isSome ↔ d.size ≠ 0 := by
    by_cases h0 : 0 < d.size <;> simp [BareMetalDeque.back, h0] <;> omega
  have hpf : (BareMetalDeque.pop_front d).1 = d.front := by
    by_cases hq : d.front.isSome <;> simp [BareMetalDeque.pop_front, hq]
  have hpb : (BareMetalDeque.pop_back d).1 = d.back := by
    by_cases hq : d.back.isSome <;> simp [BareMetalDeque.pop_back, hq]
  exact ⟨hf, hb, by rw [hpf]; exact hf, by rw [hpb]; exact hb⟩

/-- Witness for C5 on a concrete two-element deque with `start = 1`. -/
theorem C5_empty_absent_witness :
    sampleMid.start < sampleMid.array.length ∧
    ((sampleMid.front.isSome ↔ sampleMid.size ≠ 0) ∧
     (sampleMid.back.isSome ↔ sampleMid.size ≠ 0) ∧
     ((BareMetalDeque.pop_front sampleMid).1.isSome ↔ sampleMid.size ≠ 0) ∧
     ((BareMetalDeque.pop_back sampleMid).1.isSome ↔ sampleMid.size ≠ 0)) :=
  ⟨by decide, C5_empty_absent sampleMid (by decide)⟩

/-- C6 counterexample: the claim quantifies over every deque reachable from
`new()`, for every capacity; `MAX_STORED = 0` is a legal instantiation of the
const generic, and there `new()` itself — reachable by the empty operation
sequence — has `start = 0`, which does not lie in the empty interval
[0, CAPACITY) = [0, 0). -/
theorem C6_counterexample :
    BareMetalDeque.runOps ([] : List (BareMetalDeque.DequeOp Nat))
        (BareMetalDeque.new 0) = BareMetalDeque.new 0 ∧
    ¬ (BareMetalDeque.new 0 : BareMetalDeque Nat).start
        < (BareMetalDeque.new 0 : BareMetalDeque Nat).array.length :=
  ⟨rfl, by decide⟩

/-- C6 (amended: for CAPACITY ≥ 1): in every state reachable from `new()` by
any sequence of public operations (a push into a full deque leaving the state
unchanged, standing for the claim's proviso that pushes only occur when not
full), `start` lies in [0, CAPACITY) and `size` lies in [0, CAPACITY]. -/
theorem C6_bounds {α : Type} [Inhabited α] (n : Nat)
    (ops : List (BareMetalDeque.DequeOp α)) (h : 0 < n) :
    (BareMetalDeque.runOps ops (BareMetalDeque.new n)).start < n ∧
    (BareMetalDeque.runOps ops (BareMetalDeque.new n)).size ≤ n := by
  have hInv : BareMetalDeque.Inv (BareMetalDeque.new n : BareMetalDeque α) := by
    constructor <;> simp [BareMetalDeque.new] <;> omega
  obtain ⟨⟨h1, h2⟩, h3⟩ := BareMetalDeque.runOps_inv ops (BareMetalDeque.new n) hInv
  have hlen : (BareMetalDeque.new n : BareMetalDeque α).array.length = n := by
    simp [BareMetalDeque.new]
  rw [h3, hlen] at h1 h2
  exact ⟨h1, h2⟩

/-- Witness for C6 at capacity 2 with history push_back 5; pop_front. -/
theorem C6_bounds_witness :
    0 < 2 ∧
    ((BareMetalDeque.runOps
        [BareMetalDeque.DequeOp.pushBackOp 5, BareMetalDeque.DequeOp.popFrontOp]
        (BareMetalDeque.new 2 : BareMetalDeque Nat)).start < 2 ∧
     (BareMetalDeque.runOps
        [BareMetalDeque.DequeOp.pushBackOp 5, BareMetalDeque.DequeOp.popFrontOp]
        (BareMetalDeque.new 2 : BareMetalDeque Nat)).size ≤ 2) :=
  ⟨by decide,
   C6_bounds 2 [BareMetalDeque.DequeOp.pushBackOp 5, BareMetalDeque.DequeOp.popFrontOp]
     (by decide)⟩

/-- C7 (confirmed): for `i < len()` on a deque satisfying the structural
invariant, the indexed read returns exactly
`storage[(start + i) mod CAPACITY]` (first conjunct, by the code's own
arithmetic), and that value is the element logically `i` positions from the
front: after `i` calls to `pop_front` it is precisely what `front()` reports
(second conjunct) — regardless of how often the ring has wrapped. -/
theorem C7_index_is_ith_from_front {α : Type} [Inhabited α] (d : BareMetalDeque α)
    (i : Nat) (hs : d.start < d.array.length) (hi : i < d.size) :
    d.index i = d.array.getD ((d.start + i) % d.array.length) default ∧
    BareMetalDeque.front (BareMetalDeque.popFrontN i d).2 = some (d.index i) := by
  refine ⟨rfl, ?_⟩
  obtain ⟨h1, h2, h3⟩ := BareMetalDeque.popFrontN_state i d (Nat.le_of_lt hi) hs
  have hsz : 0 < (BareMetalDeque.popFrontN i d).2.size := by omega
  simp [BareMetalDeque.front, hsz, h1, h2, BareMetalDeque.index]

/-- Witness for C7 on a wrapped deque (live elements 10, 20, 30 with
`start = 2` in a capacity-4 store) at logical index 1. -/
theorem C7_index_witness :
    (sampleWrap.start < sampleWrap.array.length ∧ 1 < sampleWrap.size) ∧
    (sampleWrap.index 1
        = sampleWrap.array.getD ((sampleWrap.start + 1) % sampleWrap.array.length)
            default ∧
     BareMetalDeque.front (BareMetalDeque.popFrontN 1 sampleWrap).2
        = some (sampleWrap.index 1)) :=
  ⟨⟨by decide, by decide⟩, C7_index_is_ith_from_front sampleWrap 1 (by decide) (by decide)⟩

/-- C8 (confirmed): on any non-full deque, `push_back x` succeeds and an
immediately following `pop_back` returns `x`, restores `size` (and `start`)
to their prior values, and leaves every logical element `get(i)`,
`i < len()`, unchanged. -/
theorem C8_roundtrip {α : Type} [Inhabited α] (d : BareMetalDeque α) (x : α)
    (h : d.size < d.array.length) :
    ∃ d1, BareMetalDeque.push_back x d = some d1 ∧
      (BareMetalDeque.pop_back d1).1 = some x ∧
      (BareMetalDeque.pop_back d1).2.size = d.size ∧
      (BareMetalDeque.pop_back d1).2.start = d.start ∧
      ∀ i, i < d.size → (BareMetalDeque.pop_back d1).2.index i = d.index i := by
  have hlen : 0 < d.array.length := Nat.lt_of_le_of_lt (Nat.zero_le _) h
  have hslot : (d.start + d.size) % d.array.length < d.array.length :=
    Nat.mod_lt _ hlen
  refine ⟨_, BareMetalDeque.push_back_eq x d h, ?_, ?_, ?_, ?_⟩
  · rw [BareMetalDeque.pop_back_eq _ (by simp)]
    simp only [List.length_set]
    have harg : d.start + (d.size + 1) - 1 = d.start + d.size := by omega
    rw [harg, BareMetalDeque.getD_set_self _ _ _ _ (by simpa using hslot)]
  · rw [BareMetalDeque.pop_back_eq _ (by simp)]
    simp
  · rw [BareMetalDeque.pop_back_eq _ (by simp)]
  · intro i hi
    rw [BareMetalDeque.pop_back_eq _ (by simp)]
    simp only [BareMetalDeque.index, List.length_set]
    have hne : (d.start + d.size) % d.array.length
        ≠ (d.start + i) % d.array.length := by
      intro heq
      have := BareMetalDeque.add_mod_inj h (Nat.lt_trans hi h) heq
      omega
    rw [BareMetalDeque.getD_set_ne _ _ _ hne]

/-- Witness for C8 on a concrete two-element capacity-3 deque, pushing 9. -/
theorem C8_roundtrip_witness :
    sampleMid.size < sampleMid.array.length ∧
    ∃ d1, BareMetalDeque.push_back 9 sampleMid = some d1 ∧
      (BareMetalDeque.pop_back d1).1 = some 9 ∧
      (BareMetalDeque.pop_back d1).2.size = sampleMid.size ∧
      (BareMetalDeque.pop_back d1).2.start = sampleMid.start ∧
      ∀ i, i < sampleMid.size →
        (BareMetalDeque.pop_back d1).2.index i = sampleMid.index i :=
  ⟨by decide, C8_roundtrip sampleMid 9 (by decide)⟩

/-- C9 (confirmed): `pop_front` and `pop_back` on an empty deque are complete
no-ops: they return `none` and yield a state with `start`, `size` and the
whole storage unchanged — no partial mutation occurs on the failure path. -/
theorem C9_pop_empty_atomic {α : Type} [Inhabited α] (d : BareMetalDeque α)
    (h : d.size = 0) :
    BareMetalDeque.pop_front d = (none, d) ∧
    BareMetalDeque.pop_back d = (none, d) := by
  constructor <;>
    simp [BareMetalDeque.pop_front, BareMetalDeque.pop_back,
      BareMetalDeque.front, BareMetalDeque.back, h]

/-- Witness for C9 on a fresh empty capacity-3 deque. -/
theorem C9_pop_empty_atomic_witness :
    (BareMetalDeque.new 3 : BareMetalDeque Nat).size = 0 ∧
    (BareMetalDeque.pop_front (BareMetalDeque.new 3 : BareMetalDeque Nat)
        = (none, BareMetalDeque.new 3) ∧
     BareMetalDeque.pop_back (BareMetalDeque.new 3 : BareMetalDeque Nat)
        = (none, BareMetalDeque.new 3)) :=
  ⟨rfl, C9_pop_empty_atomic (BareMetalDeque.new 3) rfl⟩

/-- C10 (confirmed): on any non-empty deque, `pop_back` writes to no storage
slot — the backing array is bitwise unchanged, so the vacated slot keeps its
old value — and `start` is untouched: only `size` changes, dropping by 1. -/
theorem C10_pop_back_no_write {α : Type} [Inhabited α] (d : BareMetalDeque α)
    (h : 0 < d.size) :
    (BareMetalDeque.pop_back d).2.array = d.array ∧
    (BareMetalDeque.pop_back d).2.start = d.start ∧
    (BareMetalDeque.pop_back d).2.size = d.size - 1 := by
  rw [BareMetalDeque.pop_back_eq d h]
  exact ⟨rfl, rfl, rfl⟩

/-- Witness for C10 on a wrapped three-element deque. -/
theorem C10_pop_back_no_write_witness :
    0 < sampleWrap.size ∧
    ((BareMetalDeque.pop_back sampleWrap).2.array = sampleWrap.array ∧
     (BareMetalDeque.pop_back sampleWrap).2.start = sampleWrap.start ∧
     (BareMetalDeque.pop_back sampleWrap).2.size = sampleWrap.size - 1) :=
  ⟨by decide, C10_pop_back_no_write sampleWrap (by decide)⟩
